import Mathlib

/-!
Shallow embedding of `scipy/integrate/_cubature.py` (adaptive cubature with
pluggable fixed rules) over exact rational arithmetic.

Modelling conventions:

* Machine floats of the source are modelled by `ℚ` (the claims under study are
  stated "in exact arithmetic").
* An integrand is `f : List ℚ → ℚ`: it takes one evaluation point (a list of
  `d` coordinates) and returns one scalar output component.  The numpy source
  evaluates `f` on a whole `(d, m)` batch of points at once and on array
  outputs; the batch dimension is modelled by mapping `f` over the node list,
  and each component of an array-valued output behaves like an independent
  scalar integrand, so the scalar model captures the per-component claims.
* A numpy `(nodes, weights)` pair with `nodes.shape == (ndim, num_nodes)` is
  stored transposed, as the list of its `num_nodes` column points, together
  with the explicit first-axis length `ndim` (so the dimension of an empty
  node set is still represented, exactly as `nodes.shape[0]` is).
* Python exceptions are modelled with `Except PyErr`; `raise` is `.error`,
  `try/except NotImplementedError` matches on `.error .notImplementedError`.
* `heapq` is modelled by a list together with a pop operation returning a
  minimal element w.r.t. `CubatureRegion.lt` (the dataclass `__lt__`); the
  tie-breaking among equal keys is unspecified in the source and the
  model fixes one deterministic choice.
* `max_subdivisions` is modelled as a natural number (the `None`/infinite
  setting is outside the model; every claim under study concerns finite
  budgets or is insensitive to the bound).
-/

/-- Python exception values that the source can raise: `ValueError` (with its
message), `NotImplementedError`, and `IndexError` (what `heapq.heappop` raises
on an empty heap). -/
inductive PyErr where
  | valueError (msg : String)
  | notImplementedError
  | indexError
deriving DecidableEq, Repr

/-- A `(nodes, weights)` pair on the reference region `[-1, 1]^ndim`, the
value of the `rule` / `lower_rule` properties in the source.  `nodes` is the
transposed node array: the list of evaluation points, each a list of `ndim`
coordinates. -/
structure RulePair where
  ndim : ℕ
  nodes : List (List ℚ)
  weights : List ℚ
deriving DecidableEq, Repr

/-- Source `_apply_rule(f, a, b, rule)`: affinely map the reference nodes and
weights from `[-1,1]^ndim` to the hyperrectangle `[a, b]` and return the
weighted sum of the integrand values.  Raises `ValueError` when the rule
dimension does not match the lengths of `a` and `b`. -/
def _apply_rule (f : List ℚ → ℚ) (a b : List ℚ) (rule : RulePair) :
    Except PyErr ℚ :=
  let rule_ndim := rule.ndim
  let a_ndim := a.length
  let b_ndim := b.length
  if rule_ndim ≠ a_ndim ∨ rule_ndim ≠ b_ndim then
    .error (.valueError "cubature rule and function are of incompatible dimension")
  else
    let lengths := List.zipWith (fun bi ai => bi - ai) b a
    let nodes := rule.nodes.map (fun node =>
      List.zipWith3 (fun x ai li => (x + 1) * (li / 2) + ai) node a lengths)
    let weight_scale_factor := (lengths.map (fun li => li / 2)).prod
    let weights := rule.weights.map (fun w => w * weight_scale_factor)
    .ok (List.zipWith (fun w fx => w * fx) weights (nodes.map f)).sum

/-- The rule capability interface of the `Cubature` base class: `estimate` and
`error_estimate`, both taking the integrand and the bounds (`args`/`kwargs`
forwarding is absorbed into `f`). -/
structure Cubature where
  estimate : (List ℚ → ℚ) → List ℚ → List ℚ → Except PyErr ℚ
  error_estimate : (List ℚ → ℚ) → List ℚ → List ℚ → Except PyErr ℚ

/-- Source class `FixedCubature` holding a concrete `(nodes, weights)` pair:
`estimate` is `_apply_rule`, while `error_estimate` is inherited from the base
class and raises `NotImplementedError`. -/
def FixedCubature (rule : RulePair) : Cubature where
  estimate := fun f a b => _apply_rule f a b rule
  error_estimate := fun _ _ _ => .error .notImplementedError

/-- The node/weight concatenation built by
`ErrorFromDifference.error_estimate`: nodes of the higher rule followed by
nodes of the lower rule, weights of the higher rule followed by the negated
weights of the lower rule (numpy `concat` along the node axis; it requires the
spatial dimensions to agree, and the result carries that of the higher rule). -/
def errorPair (higher lower : RulePair) : RulePair where
  ndim := higher.ndim
  nodes := higher.nodes ++ lower.nodes
  weights := higher.weights ++ lower.weights.map (fun w => -w)

/-- Source class `ErrorFromDifference`: `estimate` applies the higher rule,
`error_estimate` applies the concatenated signed rule in one pass and takes
the elementwise absolute value. -/
def ErrorFromDifference (higher lower : RulePair) : Cubature where
  estimate := fun f a b => _apply_rule f a b higher
  error_estimate := fun f a b =>
    (_apply_rule f a b (errorPair higher lower)).map (fun x => |x|)

/-- Source dataclass `CubatureRegion` (scalar-output model). -/
structure CubatureRegion where
  estimate : ℚ
  error : ℚ
  a : List ℚ
  b : List ℚ
deriving DecidableEq, Repr

/-- Source `_max_norm(x) = np.max(np.abs(x))`; for the scalar-output model
this is the absolute value. -/
def _max_norm (x : ℚ) : ℚ := |x|

/-- Source `CubatureRegion.__lt__`: a region with strictly larger maximum
error norm compares as smaller, so the heap serves it first. -/
def CubatureRegion.lt (x y : CubatureRegion) : Bool :=
  _max_norm y.error < _max_norm x.error

/-- Model of `heapq.heappop` on the region working set: remove and return an
element that is minimal w.r.t. `CubatureRegion.lt` (i.e. of maximal error
norm), `none` on the empty list (where `heappop` raises `IndexError`).
Among tied elements the model keeps the earliest. -/
def heappop : List CubatureRegion → Option (CubatureRegion × List CubatureRegion)
  | [] => none
  | r :: rest =>
    match heappop rest with
    | none => some (r, [])
    | some (w, rest') => if w.lt r then some (w, r :: rest') else some (r, rest)

/-- Source dataclass `CubatureResult` (scalar-output model). -/
structure CubatureResult where
  estimate : ℚ
  error : ℚ
  success : Bool
  status : String
  regions : List CubatureRegion
  subdivisions : ℕ
  atol : ℚ
  rtol : ℚ
deriving DecidableEq, Repr

/-- Semantics of `itertools.product` applied to a list of factor lists: all
ways of picking one element from each factor, the last factor varying
fastest. -/
def listProd {α : Type} : List (List α) → List (List α)
  | [] => [[]]
  | r :: rs => (r.map (fun x => (listProd rs).map (fun c => x :: c))).flatten

/-- The midpoint vector `m = (a + b)/2` of `_subregion_coordinates`. -/
def midpointVec (a b : List ℚ) : List ℚ :=
  List.zipWith (fun x y => (x + y) / 2) a b

/-- Source `_subregion_coordinates(a, b)`: zip the `itertools.product` of the
per-axis pairs `(a[i], m[i])` with the product of the per-axis pairs
`(m[i], b[i])`, giving the `2^d` bisected subregions. -/
def _subregion_coordinates (a b : List ℚ) : List (List ℚ × List ℚ) :=
  let m := midpointVec a b
  List.zip (listProd (List.zipWith (fun ai mi => [ai, mi]) a m))
           (listProd (List.zipWith (fun mi bi => [mi, bi]) m b))

/-- Body of the `for a_k_sub, b_k_sub in _subregion_coordinates(...)` loop of
`cubature`: evaluate the rule on each subregion, accumulate the estimates and
errors into the running global sums, and push the new regions. -/
def updateSubregions (rule : Cubature) (f : List ℚ → ℚ) :
    List (List ℚ × List ℚ) → ℚ → ℚ → List CubatureRegion →
    Except PyErr (ℚ × ℚ × List CubatureRegion)
  | [], est, err, regions => .ok (est, err, regions)
  | (a_sub, b_sub) :: rest, est, err, regions =>
    match rule.estimate f a_sub b_sub with
    | .error e => .error e
    | .ok est_sub =>
      match rule.error_estimate f a_sub b_sub with
      | .error e => .error e
      | .ok err_sub =>
        updateSubregions rule f rest (est + est_sub) (err + err_sub)
          (regions ++ [⟨est_sub, err_sub, a_sub, b_sub⟩])

/-- The `while np.any(err > atol + rtol * np.abs(est))` refinement loop of
`cubature`, with the running state (global estimate, global error, region
working set, subdivision counter) made explicit.  Terminates because the
counter strictly increases towards `max_subdivisions` and the loop breaks
with `success = False` as soon as the counter reaches the budget. -/
def cubatureLoop (f : List ℚ → ℚ) (rule : Cubature) (rtol atol : ℚ)
    (max_subdivisions : ℕ) (est err : ℚ) (regions : List CubatureRegion)
    (subdivisions : ℕ) : Except PyErr CubatureResult :=
  if err > atol + rtol * |est| then
    match heappop regions with
    | none => .error .indexError
    | some (region_k, rest) =>
      let est' := est - region_k.estimate
      let err' := err - region_k.error
      match updateSubregions rule f (_subregion_coordinates region_k.a region_k.b)
          est' err' rest with
      | .error e => .error e
      | .ok (est2, err2, regions2) =>
        if h : subdivisions + 1 ≥ max_subdivisions then
          .ok ⟨est2, err2, false, "not_converged", regions2, subdivisions + 1,
               atol, rtol⟩
        else
          cubatureLoop f rule rtol atol max_subdivisions est2 err2 regions2
            (subdivisions + 1)
  else
    .ok ⟨est, err, true, "converged", regions, subdivisions, atol, rtol⟩
termination_by max_subdivisions - subdivisions
decreasing_by omega

/-- Source entry point `cubature(f, a, b, rule, rtol, atol, max_subdivisions)`.
The bounds are `List ℚ`, hence rank-1 by construction (the `a.ndim != 1`
check of the source cannot fire in the model).  The initial estimate and error
are computed over the full region; a `NotImplementedError` from
`error_estimate` is converted into the explanatory `ValueError`; then the
refinement loop runs starting from the single full region. -/
def cubature (f : List ℚ → ℚ) (a b : List ℚ) (rule : Cubature)
    (rtol atol : ℚ) (max_subdivisions : ℕ) : Except PyErr CubatureResult :=
  match rule.estimate f a b with
  | .error e => .error e
  | .ok est =>
    match rule.error_estimate f a b with
    | .error .notImplementedError =>
      .error (.valueError
        "attempting cubature with a rule that does not implement error estimation.")
    | .error e => .error e
    | .ok err =>
      cubatureLoop f rule rtol atol max_subdivisions est err [⟨est, err, a, b⟩] 0

/-- Semantics of `np.linspace(start, stop, num)` with endpoint (the only mode
the source uses): `num` equally spaced samples from `start` to `stop`
inclusive. -/
def linspace (start stop : ℚ) (num : ℕ) : List ℚ :=
  (List.range num).map (fun (i : ℕ) => start + (stop - start) * (i : ℚ) / ((num : ℚ) - 1))

/-- Node construction of `NewtonCotes.rule`: for the open variant,
`linspace(-1 + h, 1 - h, npoints)` with `h = 2/npoints`; for the closed
variant, `linspace(-1, 1, npoints)`. -/
def NewtonCotes.nodes1d (npoints : ℕ) (isOpen : Bool) : List ℚ :=
  if isOpen then
    let h : ℚ := 2 / (npoints : ℚ)
    linspace (-1 + h) (1 - h) npoints
  else
    linspace (-1) 1 npoints

/-- Matrix-vector product of a row-major rational matrix with a vector. -/
def matVec (M : List (List ℚ)) (v : List ℚ) : List ℚ :=
  M.map (fun row => (List.zipWith (fun x y => x * y) row v).sum)

/-- The coefficient matrix `a = np.transpose(np.vander(points, increasing=True))`
of `_newton_cotes_weights`: row `i` is `[points[0]^i, ..., points[n-1]^i]`. -/
def _newton_cotes_vanderT (points : List ℚ) : List (List ℚ) :=
  (List.range points.length).map (fun i => points.map (fun p => p ^ i))

/-- The right-hand side `b` of `_newton_cotes_weights`:
`b[i] = (1 - (-1)^(i+1)) / (2*(i+1))`. -/
def _newton_cotes_rhs (n : ℕ) : List ℚ :=
  (List.range n).map (fun i => (1 - (-1 : ℚ) ^ (i + 1 : ℕ)) / (2 * ((i : ℚ) + 1)))

/-- Contract of the external collaborator `np.linalg.solve(M, rhs)`: the
returned vector `x` has the length of `rhs` and satisfies `M x = rhs` (for the
invertible systems the source feeds it, this determines `x` uniquely). -/
def IsLinSolve (M : List (List ℚ)) (rhs x : List ℚ) : Prop :=
  x.length = rhs.length ∧ matVec M x = rhs

/-- Input/output relation of `_newton_cotes_weights(points)`: the returned
weight vector is `2 * x` where `x` is what `np.linalg.solve` returns on the
transposed Vandermonde matrix and the half-moment right-hand side. -/
def _newton_cotes_weights_rel (points w : List ℚ) : Prop :=
  ∃ x, IsLinSolve (_newton_cotes_vanderT points) (_newton_cotes_rhs points.length) x ∧
       w = x.map (fun t => 2 * t)

/-- Weight list of the degree-7 rule built by `GenzMalik.rule`: the five
closed-form weights repeated with the five family multiplicities
`[1, 2*ndim, 2*ndim, 2*(ndim-1)*ndim, 2^ndim]` (`np.repeat`). -/
def GenzMalik.weights (ndim : ℕ) : List ℚ :=
  let w_1 : ℚ := (2 ^ ndim) * (12824 - 9120 * (ndim : ℚ) + 400 * (ndim : ℚ) ^ 2) / 19683
  let w_2 : ℚ := (2 ^ ndim) * 980 / 6561
  let w_3 : ℚ := (2 ^ ndim) * (1820 - 400 * (ndim : ℚ)) / 19683
  let w_4 : ℚ := (2 ^ ndim) * (200 / 19683)
  let w_5 : ℚ := 6859 / 19683
  List.replicate 1 w_1 ++ List.replicate (2 * ndim) w_2 ++ List.replicate (2 * ndim) w_3
    ++ List.replicate (2 * (ndim - 1) * ndim) w_4 ++ List.replicate (2 ^ ndim) w_5

/-- Weight list of the degree-5 rule built by `GenzMalik.lower_rule`: four
closed-form weights with multiplicities `[1, 2*ndim, 2*ndim, 2*(ndim-1)*ndim]`
(the `2^ndim` corner family is absent). -/
def GenzMalik.lowerWeights (ndim : ℕ) : List ℚ :=
  let w_1 : ℚ := (2 ^ ndim) * (729 - 950 * (ndim : ℚ) + 50 * (ndim : ℚ) ^ 2) / 729
  let w_2 : ℚ := (2 ^ ndim) * (245 / 486)
  let w_3 : ℚ := (2 ^ ndim) * (265 - 100 * (ndim : ℚ)) / 1458
  let w_4 : ℚ := (2 ^ ndim) * (25 / 729)
  List.replicate 1 w_1 ++ List.replicate (2 * ndim) w_2 ++ List.replicate (2 * ndim) w_3
    ++ List.replicate (2 * (ndim - 1) * ndim) w_4

/-- Substituting a per-axis `zipWith` into the third argument of a
`zipWith3` over the same index range. -/
lemma zipWith3_zipWith_right (F : ℚ → ℚ → ℚ → ℚ) (G : ℚ → ℚ → ℚ) :
    ∀ (n a b : List ℚ),
      List.zipWith3 F n a (List.zipWith G b a) =
        List.zipWith3 (fun x ai bi => F x ai (G bi ai)) n a b := by
  intro n
  induction n with
  | nil => intro a b; simp [List.zipWith3]
  | cons x xs ih =>
    intro a b
    cases a with
    | nil => simp [List.zipWith3]
    | cons a0 as =>
      cases b with
      | nil => simp [List.zipWith3]
      | cons b0 bs => simp [List.zipWith3, ih]

/-- C1: for a fixed cubature rule with reference pair `(nodes, weights)` of
spatial dimension `d`, any integrand `f` and any length-`d` bounds `a`, `b`,
`FixedCubature.estimate f a b` returns the weighted sum
`Σ_k weight_k' * f(node_k')` where `node' = (node + 1) * (b - a)/2 + a`
elementwise per axis and `weight' = weight * Π_i (b[i] - a[i])/2`. -/
theorem FixedCubature_estimate_eq_mapped_weighted_sum
    (rule : RulePair) (f : List ℚ → ℚ) (a b : List ℚ) (d : ℕ)
    (hrule : rule.ndim = d) (ha : a.length = d) (hb : b.length = d) :
    (FixedCubature rule).estimate f a b =
      .ok ((List.zipWith (fun w node =>
          (w * (List.zipWith (fun bi ai => (bi - ai) / 2) b a).prod) *
            f (List.zipWith3 (fun x ai bi => (x + 1) * ((bi - ai) / 2) + ai) node a b))
        rule.weights rule.nodes).sum) := by
  have hcond : ¬(rule.ndim ≠ a.length ∨ rule.ndim ≠ b.length) := by
    simp [hrule, ha, hb]
  simp only [FixedCubature, _apply_rule, if_neg hcond]
  congr 1
  rw [List.map_map, List.zipWith_map, List.map_zipWith]
  simp only [Function.comp_def, zipWith3_zipWith_right]

theorem FixedCubature_estimate_weighted_sum_witness :
    (FixedCubature ⟨1, [[-1], [1]], [1, 1]⟩).estimate (fun x => x.headI) [0] [1] =
      .ok ((List.zipWith (fun w node =>
          (w * (List.zipWith (fun bi ai => (bi - ai) / 2) [(1:ℚ)] [(0:ℚ)]).prod) *
            List.headI (List.zipWith3 (fun x ai bi => (x + 1) * ((bi - ai) / 2) + ai) node [0] [1]))
        [1, 1] [[-1], [1]]).sum) :=
  FixedCubature_estimate_eq_mapped_weighted_sum ⟨1, [[-1], [1]], [1, 1]⟩
    (fun x => x.headI) [0] [1] 1 rfl rfl rfl

/-- Negating each weight before scaling negates the weighted sum. -/
lemma zipWith_neg_scaled_sum (s : ℚ) :
    ∀ (ws xs : List ℚ),
      (List.zipWith (fun w fx => w * fx) ((ws.map (fun w => -w)).map (fun w => w * s)) xs).sum
        = -(List.zipWith (fun w fx => w * fx) (ws.map (fun w => w * s)) xs).sum := by
  intro ws
  induction ws with
  | nil => intro xs; simp
  | cons w ws ih =>
    intro xs
    cases xs with
    | nil => simp
    | cons x xs =>
      simp only [List.map_cons, List.zipWith_cons_cons, List.sum_cons, ih]
      ring

/-- C2: the single-pass `ErrorFromDifference.error_estimate` over the
concatenated node set with weights `weights_H ++ (-weights_L)` equals the
absolute difference `|H.estimate - L.estimate|` in exact arithmetic. -/
theorem ErrorFromDifference_error_estimate_abs_diff
    (higher lower : RulePair) (f : List ℚ → ℚ) (a b : List ℚ)
    (hdim : lower.ndim = higher.ndim)
    (ha : a.length = higher.ndim) (hb : b.length = higher.ndim)
    (hwf : higher.nodes.length = higher.weights.length)
    (eH eL : ℚ)
    (hH : _apply_rule f a b higher = .ok eH)
    (hL : _apply_rule f a b lower = .ok eL) :
    (ErrorFromDifference higher lower).error_estimate f a b = .ok |eH - eL| := by
  have hcond : ¬(higher.ndim ≠ a.length ∨ higher.ndim ≠ b.length) := by simp [ha, hb]
  have hcondL : ¬(lower.ndim ≠ a.length ∨ lower.ndim ≠ b.length) := by simp [hdim, ha, hb]
  simp only [_apply_rule, if_neg hcond, Except.ok.injEq] at hH
  simp only [_apply_rule, if_neg hcondL, Except.ok.injEq] at hL
  simp only [ErrorFromDifference, errorPair, _apply_rule, if_neg hcond, Except.map]
  rw [List.map_append, List.map_append, List.map_append]
  rw [List.zipWith_append _ _ _ _ _ (by simp [hwf]), List.sum_append]
  rw [zipWith_neg_scaled_sum]
  rw [hH, hL]
  rw [← sub_eq_add_neg]

/-- Witness for C2 at the embedded midpoint/trapezoid pair on `[0, 1]` with
integrand `x ↦ x²`. -/
theorem ErrorFromDifference_error_estimate_abs_diff_witness :
    (ErrorFromDifference ⟨1, [[0]], [2]⟩ ⟨1, [[-1], [1]], [1, 1]⟩).error_estimate
        (fun x => x.headI * x.headI) [0] [1] = .ok |(1 : ℚ)/4 - 1/2| := by
  have hH : _apply_rule (fun x => x.headI * x.headI) [0] [1] ⟨1, [[0]], [2]⟩ =
      .ok (1/4 : ℚ) := by
    simp [_apply_rule, List.zipWith3]
    norm_num
  have hL : _apply_rule (fun x => x.headI * x.headI) [0] [1] ⟨1, [[-1], [1]], [1, 1]⟩ =
      .ok (1/2 : ℚ) := by
    simp [_apply_rule, List.zipWith3]
    norm_num
  exact ErrorFromDifference_error_estimate_abs_diff ⟨1, [[0]], [2]⟩ ⟨1, [[-1], [1]], [1, 1]⟩
    (fun x => x.headI * x.headI) [0] [1] rfl rfl rfl rfl (1/4) (1/2) hH hL

/-- C7: the degree-7 Genz–Malik weights (five closed-form values with family
multiplicities `1, 2·ndim, 2·ndim, 2·(ndim−1)·ndim, 2^ndim`) sum to exactly
`2^ndim`, and so do the degree-5 lower weights (without the last family), for
every `ndim ≥ 2`; hence each rule integrates the constant `1` exactly over
`[-1, 1]^ndim`. -/
theorem genz_malik_weights_sum_eq_two_pow (ndim : ℕ) (h : 2 ≤ ndim) :
    (GenzMalik.weights ndim).sum = 2 ^ ndim ∧
      (GenzMalik.lowerWeights ndim).sum = 2 ^ ndim := by
  have hc : ((ndim - 1 : ℕ) : ℚ) = (ndim : ℚ) - 1 := by
    rw [Nat.cast_sub (by omega)]
    norm_num
  constructor <;>
  · simp only [GenzMalik.weights, GenzMalik.lowerWeights, List.sum_append,
      List.sum_replicate, nsmul_eq_mul]
    push_cast [hc]
    ring

/-- Claim-side matrix for C5: `np.vander(points, increasing=True)` itself,
whose row `j` is `[points[j]^0, points[j]^1, ...]`.  This is the transpose of
the system matrix `_newton_cotes_vanderT`, i.e. the matrix `Vᵗ` of the claim when `V` is
read as `V[i,j] = node_j^i`. -/
def _newton_cotes_vander (points : List ℚ) : List (List ℚ) :=
  points.map (fun p => (List.range points.length).map (fun i => p ^ i))

/-- The `npoints = 2` closed Newton–Cotes system has solution `x = [1/2, 1/2]`,
so the returned weights are `[1, 1]`. -/
lemma nc2_weights_rel : _newton_cotes_weights_rel [-1, 1] [1, 1] := by
  refine ⟨[1/2, 1/2], ⟨by simp [_newton_cotes_rhs], ?_⟩, by norm_num⟩
  simp [matVec, _newton_cotes_vanderT, _newton_cotes_rhs, List.range_succ, List.zipWith]
  norm_num

/-- C5 counterexample: for `npoints = 2` (closed nodes `[-1, 1]`) the weight
construction returns `w = [1, 1]` (uniquely), and `w` satisfies neither
`Vᵗ w = m` nor `V w = m` for `V[i,j] = node_j^i` and
`m_i = (1 - (-1)^(i+1)) / (2(i+1))`: the true system is `V w = 2m`. -/
theorem newton_cotes_weights_moment_system_counterexample :
    NewtonCotes.nodes1d 2 false = [-1, 1] ∧
    _newton_cotes_weights_rel [-1, 1] [1, 1] ∧
    (∀ w, _newton_cotes_weights_rel [-1, 1] w → w = [1, 1]) ∧
    matVec (_newton_cotes_vander [-1, 1]) [1, 1] ≠ _newton_cotes_rhs 2 ∧
    matVec (_newton_cotes_vanderT [-1, 1]) [1, 1] ≠ _newton_cotes_rhs 2 := by
  have h1 : NewtonCotes.nodes1d 2 false = [-1, 1] := by
    simp [NewtonCotes.nodes1d, linspace, List.range_succ]
    norm_num
  have h2 : _newton_cotes_weights_rel [-1, 1] [1, 1] := nc2_weights_rel
  have h3 : ∀ w, _newton_cotes_weights_rel [-1, 1] w → w = [1, 1] := by
    rintro w ⟨x, ⟨hlen, hsolve⟩, hw⟩
    simp [_newton_cotes_rhs] at hlen
    match x, hlen with
    | [x0, x1], _ =>
      simp [matVec, _newton_cotes_vanderT, _newton_cotes_rhs, List.range_succ,
        List.zipWith] at hsolve
      obtain ⟨hs1, hs2⟩ := hsolve
      have hx0 : x0 = 1/2 := by linarith
      have hx1 : x1 = 1/2 := by linarith
      subst hx0 hx1 hw
      norm_num
  have h4 : matVec (_newton_cotes_vander [-1, 1]) [1, 1] ≠ _newton_cotes_rhs 2 := by
    simp [matVec, _newton_cotes_vander, _newton_cotes_rhs, List.range_succ, List.zipWith]
  have h5 : matVec (_newton_cotes_vanderT [-1, 1]) [1, 1] ≠ _newton_cotes_rhs 2 := by
    simp [matVec, _newton_cotes_vanderT, _newton_cotes_rhs, List.range_succ, List.zipWith]
  exact ⟨h1, h2, h3, h4, h5⟩

/-- Scaling the vector by a constant scales a weighted sum. -/
lemma zipWith_mul_map_const (c : ℚ) :
    ∀ (row x : List ℚ),
      (List.zipWith (fun p q => p * q) row (x.map (fun t => c * t))).sum
        = c * (List.zipWith (fun p q => p * q) row x).sum := by
  intro row
  induction row with
  | nil => intro x; simp
  | cons r rs ih =>
    intro x
    cases x with
    | nil => simp
    | cons x0 xs =>
      simp only [List.map_cons, List.zipWith_cons_cons, List.sum_cons, ih]
      ring

/-- C5 amended: the weight vector returned by the Newton–Cotes construction
satisfies `V w = 2m`, i.e. `V w = μ` where `V[i,j] = node_j^i` is the solved
system matrix, and `μ_i = (1 - (-1)^(i+1)) / (i+1)` is the exact integral of
`x^i` over `[-1, 1]` (twice the claimed right-hand side `m`). -/
theorem newton_cotes_weights_solve_doubled_moments (points w : List ℚ)
    (hrel : _newton_cotes_weights_rel points w) :
    matVec (_newton_cotes_vanderT points) w =
      (List.range points.length).map
        (fun i => (1 - (-1 : ℚ) ^ (i + 1 : ℕ)) / ((i : ℚ) + 1)) := by
  obtain ⟨x, ⟨hlen, hsolve⟩, hw⟩ := hrel
  subst hw
  have hmv : matVec (_newton_cotes_vanderT points) (x.map (fun t => 2 * t)) =
      (matVec (_newton_cotes_vanderT points) x).map (fun t => 2 * t) := by
    simp only [matVec, List.map_map]
    apply List.map_congr_left
    intro row _
    simp [Function.comp, zipWith_mul_map_const]
  rw [hmv, hsolve, _newton_cotes_rhs, List.map_map]
  apply List.map_congr_left
  intro i _
  have : ((i : ℚ) + 1) ≠ 0 := by positivity
  field_simp
  ring

/-- Witness for the amended C5 at the `npoints = 2` closed rule. -/
theorem newton_cotes_weights_solve_doubled_moments_witness :
    _newton_cotes_weights_rel [-1, 1] [1, 1] ∧
    matVec (_newton_cotes_vanderT [-1, 1]) [1, 1] =
      (List.range (2 : ℕ)).map
        (fun i => (1 - (-1 : ℚ) ^ (i + 1 : ℕ)) / ((i : ℚ) + 1)) := by
  exact ⟨nc2_weights_rel,
    newton_cotes_weights_solve_doubled_moments [-1, 1] [1, 1] nc2_weights_rel⟩

/-- Witness for C7 at `ndim = 2`. -/
theorem genz_malik_weights_sum_eq_two_pow_witness :
    (GenzMalik.weights 2).sum = 2 ^ 2 ∧ (GenzMalik.lowerWeights 2).sum = 2 ^ 2 :=
  genz_malik_weights_sum_eq_two_pow 2 (by norm_num)

/-- C6 counterexample: for `npoints = 4` the open Newton–Cotes nodes are
`[-1/2, -1/6, 1/6, 1/2]`: the consecutive spacing is `1/3`, not
`h = 2/npoints = 1/2`, and the node `-1/6` is not a gridpoint of the
4-subinterval partition of `[-1, 1]`, so the nodes are not the interior
points of that partition. -/
theorem newton_cotes_open_nodes_spacing_counterexample :
    NewtonCotes.nodes1d 4 true = [-1/2, -1/6, 1/6, 1/2] ∧
    List.zipWith (fun x y => y - x) (NewtonCotes.nodes1d 4 true)
        (NewtonCotes.nodes1d 4 true).tail = [1/3, 1/3, 1/3] ∧
    (1 : ℚ)/3 ≠ 2/4 ∧
    ¬ ((-1 : ℚ)/6 ∈ (List.range 5).map (fun k => -1 + (k : ℚ) * (2/4))) := by
  have h1 : NewtonCotes.nodes1d 4 true = [-1/2, -1/6, 1/6, 1/2] := by
    simp [NewtonCotes.nodes1d, linspace, List.range_succ]
    norm_num
  refine ⟨h1, ?_, by norm_num, ?_⟩
  · rw [h1]
    simp [List.zipWith]
    norm_num
  · simp [List.range_succ]
    norm_num

/-- C6 amended: for every `npoints ≥ 2`, the open Newton–Cotes construction
produces `npoints` equally spaced nodes running from `-1 + h` to `1 - h` with
`h = 2/npoints`, all strictly inside `(-1, 1)` (endpoints excluded), with
consecutive spacing `2(npoints - 2)/(npoints(npoints - 1))` — not `h`. -/
theorem newton_cotes_open_nodes_characterization (npoints : ℕ) (h : 2 ≤ npoints) :
    (NewtonCotes.nodes1d npoints true).length = npoints ∧
    NewtonCotes.nodes1d npoints true =
      (List.range npoints).map (fun (i : ℕ) =>
        -1 + 2 / (npoints : ℚ) + (i : ℚ) *
          (2 * ((npoints : ℚ) - 2) / ((npoints : ℚ) * ((npoints : ℚ) - 1)))) ∧
    (∀ x ∈ NewtonCotes.nodes1d npoints true, -1 < x ∧ x < 1) := by
  have hn2 : (2 : ℚ) ≤ (npoints : ℚ) := by exact_mod_cast h
  have hnpos : (0 : ℚ) < (npoints : ℚ) := by linarith
  have hn0 : (npoints : ℚ) ≠ 0 := by linarith
  have hn1 : (npoints : ℚ) - 1 ≠ 0 := by linarith
  have hchar : NewtonCotes.nodes1d npoints true =
      (List.range npoints).map (fun (i : ℕ) =>
        -1 + 2 / (npoints : ℚ) + (i : ℚ) *
          (2 * ((npoints : ℚ) - 2) / ((npoints : ℚ) * ((npoints : ℚ) - 1)))) := by
    simp only [NewtonCotes.nodes1d, if_true, linspace]
    apply List.map_congr_left
    intro i _
    field_simp
    left
    ring
  refine ⟨by simp [NewtonCotes.nodes1d, linspace], hchar, ?_⟩
  intro x hx
  rw [hchar] at hx
  obtain ⟨i, hi, rfl⟩ := List.mem_map.mp hx
  have hiQ : (i : ℚ) ≤ (npoints : ℚ) - 1 := by
    have hi1 : i + 1 ≤ npoints := List.mem_range.mp hi
    have hi2 := (Nat.cast_le (α := ℚ)).mpr hi1
    push_cast at hi2
    linarith
  have hs : 0 ≤ 2 * ((npoints : ℚ) - 2) / ((npoints : ℚ) * ((npoints : ℚ) - 1)) := by
    apply div_nonneg
    · linarith
    · nlinarith
  have h2n : 0 < 2 / (npoints : ℚ) := by positivity
  constructor
  · nlinarith [mul_nonneg (Nat.cast_nonneg (α := ℚ) i) hs]
  · have hle : (i : ℚ) * (2 * ((npoints : ℚ) - 2) / ((npoints : ℚ) * ((npoints : ℚ) - 1)))
        ≤ ((npoints : ℚ) - 1) *
          (2 * ((npoints : ℚ) - 2) / ((npoints : ℚ) * ((npoints : ℚ) - 1))) :=
      mul_le_mul_of_nonneg_right hiQ hs
    have heq : -1 + 2 / (npoints : ℚ) + ((npoints : ℚ) - 1) *
        (2 * ((npoints : ℚ) - 2) / ((npoints : ℚ) * ((npoints : ℚ) - 1))) =
        1 - 2 / (npoints : ℚ) := by
      field_simp
      ring
    linarith

/-- Witness for the amended C6 at `npoints = 4`. -/
theorem newton_cotes_open_nodes_characterization_witness :
    (NewtonCotes.nodes1d 4 true).length = 4 ∧
    NewtonCotes.nodes1d 4 true =
      (List.range 4).map (fun (i : ℕ) =>
        -1 + 2 / (4 : ℚ) + (i : ℚ) * (2 * ((4 : ℚ) - 2) / ((4 : ℚ) * ((4 : ℚ) - 1)))) ∧
    (∀ x ∈ NewtonCotes.nodes1d 4 true, -1 < x ∧ x < 1) := by
  have := newton_cotes_open_nodes_characterization 4 (by norm_num)
  simpa using this

/-- C9: whenever `error_estimate` of the supplied rule raises
`NotImplementedError` (and its `estimate` succeeds), `cubature` raises the
explanatory `ValueError` before the refinement loop starts; the raw
`NotImplementedError` is never propagated. -/
theorem cubature_rejects_rule_without_error_estimation
    (f : List ℚ → ℚ) (a b : List ℚ) (rule : Cubature) (rtol atol : ℚ)
    (max_subdivisions : ℕ) (e : ℚ)
    (hest : rule.estimate f a b = .ok e)
    (herr : rule.error_estimate f a b = .error .notImplementedError) :
    cubature f a b rule rtol atol max_subdivisions =
      .error (.valueError
        "attempting cubature with a rule that does not implement error estimation.") := by
  simp only [cubature, hest, herr]

/-- Witness for C9: a bare `FixedCubature` (no error estimator) is rejected. -/
theorem cubature_rejects_rule_without_error_estimation_witness :
    cubature (fun _ => 1) [0] [1] (FixedCubature ⟨1, [[0]], [2]⟩) 0 0 10 =
      .error (.valueError
        "attempting cubature with a rule that does not implement error estimation.") := by
  have hest : (FixedCubature ⟨1, [[0]], [2]⟩).estimate (fun _ => 1) [0] [1] = .ok 1 := by
    simp [FixedCubature, _apply_rule, List.zipWith3]
  exact cubature_rejects_rule_without_error_estimation (fun _ => 1) [0] [1]
    (FixedCubature ⟨1, [[0]], [2]⟩) 0 0 10 1 hest rfl

/-- C10: if the initial estimate and error over the full region already
satisfy the convergence test, `cubature` returns at once with
`subdivisions = 0`, `success = True`, `status = "converged"`, and a single
region holding the full bounds and the initial estimate and error. -/
theorem cubature_immediate_convergence
    (f : List ℚ → ℚ) (a b : List ℚ) (rule : Cubature) (rtol atol : ℚ)
    (max_subdivisions : ℕ) (est err : ℚ)
    (hest : rule.estimate f a b = .ok est)
    (herr : rule.error_estimate f a b = .ok err)
    (hconv : ¬(err > atol + rtol * |est|)) :
    cubature f a b rule rtol atol max_subdivisions =
      .ok ⟨est, err, true, "converged", [⟨est, err, a, b⟩], 0, atol, rtol⟩ := by
  simp only [cubature, hest, herr]
  rw [cubatureLoop]
  rw [if_neg hconv]

/-- Witness for C10: the midpoint/trapezoid difference rule on `f(x) = x`
over `[0, 1]` has zero error estimate and converges without refinement. -/
theorem cubature_immediate_convergence_witness :
    cubature (fun x => x.headI) [0] [1]
        (ErrorFromDifference ⟨1, [[0]], [2]⟩ ⟨1, [[-1], [1]], [1, 1]⟩) 0 0 10 =
      .ok ⟨1/2, 0, true, "converged", [⟨1/2, 0, [0], [1]⟩], 0, 0, 0⟩ := by
  have hest : (ErrorFromDifference ⟨1, [[0]], [2]⟩ ⟨1, [[-1], [1]], [1, 1]⟩).estimate
      (fun x => x.headI) [0] [1] = .ok (1/2 : ℚ) := by
    simp [ErrorFromDifference, _apply_rule, List.zipWith3]
  have herr : (ErrorFromDifference ⟨1, [[0]], [2]⟩ ⟨1, [[-1], [1]], [1, 1]⟩).error_estimate
      (fun x => x.headI) [0] [1] = .ok (0 : ℚ) := by
    simp [ErrorFromDifference, errorPair, _apply_rule, List.zipWith3, Except.map]
    norm_num
  exact cubature_immediate_convergence _ [0] [1] _ 0 0 10 (1/2) 0 hest herr (by norm_num)


/-- Sum of the `estimate` fields of a region working set. -/
def regionsEstSum (rs : List CubatureRegion) : ℚ :=
  (rs.map (fun r => r.estimate)).sum

/-- Sum of the `error` fields of a region working set. -/
def regionsErrSum (rs : List CubatureRegion) : ℚ :=
  (rs.map (fun r => r.error)).sum

lemma heappop_eq_none {rs : List CubatureRegion} (h : heappop rs = none) : rs = [] := by
  cases rs with
  | nil => rfl
  | cons r rest =>
    rw [heappop] at h
    cases hrest : heappop rest with
    | none => simp [hrest] at h
    | some p =>
      rw [hrest] at h
      by_cases hlt : p.1.lt r <;> simp [hlt] at h

lemma heappop_perm :
    ∀ (rs : List CubatureRegion) (w : CubatureRegion) (rest : List CubatureRegion),
      heappop rs = some (w, rest) → rs.Perm (w :: rest) := by
  intro rs
  induction rs with
  | nil => intro w rest h; simp [heappop] at h
  | cons r rs0 ih =>
    intro w rest h
    rw [heappop] at h
    cases hrest : heappop rs0 with
    | none =>
      rw [hrest] at h
      have : rs0 = [] := heappop_eq_none hrest
      subst this
      simp at h
      obtain ⟨hw, hr⟩ := h
      subst hw hr
      exact List.Perm.refl _
    | some p =>
      obtain ⟨w0, rest0⟩ := p
      simp only [hrest] at h
      cases hlt : w0.lt r with
      | true =>
        simp only [hlt, if_true, Option.some.injEq, Prod.mk.injEq] at h
        obtain ⟨hw, hr⟩ := h
        rw [← hw, ← hr]
        have step1 : (r :: rs0).Perm (r :: w0 :: rest0) := (ih w0 rest0 hrest).cons r
        have step2 : (r :: w0 :: rest0).Perm (w0 :: r :: rest0) := List.Perm.swap _ _ _
        exact step1.trans step2
      | false =>
        simp only [hlt, Bool.false_eq_true, if_false, Option.some.injEq,
          Prod.mk.injEq] at h
        obtain ⟨hw, hr⟩ := h
        subst hw
        subst hr
        exact List.Perm.refl _

lemma heappop_estSum {rs : List CubatureRegion} {w : CubatureRegion}
    {rest : List CubatureRegion} (h : heappop rs = some (w, rest)) :
    regionsEstSum rs = w.estimate + regionsEstSum rest := by
  have hp := (heappop_perm rs w rest h).map (fun r => r.estimate)
  simpa [regionsEstSum] using hp.sum_eq

lemma heappop_errSum {rs : List CubatureRegion} {w : CubatureRegion}
    {rest : List CubatureRegion} (h : heappop rs = some (w, rest)) :
    regionsErrSum rs = w.error + regionsErrSum rest := by
  have hp := (heappop_perm rs w rest h).map (fun r => r.error)
  simpa [regionsErrSum] using hp.sum_eq

lemma updateSubregions_sums (rule : Cubature) (f : List ℚ → ℚ) :
    ∀ (subs : List (List ℚ × List ℚ)) (est err : ℚ) (regions : List CubatureRegion)
      (out : ℚ × ℚ × List CubatureRegion),
      updateSubregions rule f subs est err regions = .ok out →
      out.1 - regionsEstSum out.2.2 = est - regionsEstSum regions ∧
        out.2.1 - regionsErrSum out.2.2 = err - regionsErrSum regions := by
  intro subs
  induction subs with
  | nil =>
    intro est err regions out h
    simp only [updateSubregions, Except.ok.injEq] at h
    subst h
    simp
  | cons p rest ih =>
    intro est err regions out h
    obtain ⟨a_sub, b_sub⟩ := p
    rw [updateSubregions] at h
    cases hest : rule.estimate f a_sub b_sub with
    | error e => simp [hest] at h
    | ok est_sub =>
      cases herr : rule.error_estimate f a_sub b_sub with
      | error e => simp [hest, herr] at h
      | ok err_sub =>
        simp only [hest, herr] at h
        have := ih (est + est_sub) (err + err_sub)
          (regions ++ [⟨est_sub, err_sub, a_sub, b_sub⟩]) out h
        simp only [regionsEstSum, regionsErrSum, List.map_append, List.sum_append,
          List.map_cons, List.sum_cons, List.map_nil, List.sum_nil] at this ⊢
        constructor <;> linarith [this.1, this.2]

lemma cubatureLoop_invariant (f : List ℚ → ℚ) (rule : Cubature) (rtol atol : ℚ)
    (max_subdivisions : ℕ) :
    ∀ (n : ℕ) (est err : ℚ) (regions : List CubatureRegion) (subdivisions : ℕ)
      (res : CubatureResult),
      max_subdivisions - subdivisions = n →
      est = regionsEstSum regions → err = regionsErrSum regions →
      cubatureLoop f rule rtol atol max_subdivisions est err regions subdivisions =
        .ok res →
      res.estimate = regionsEstSum res.regions ∧
        res.error = regionsErrSum res.regions := by
  intro n
  induction n using Nat.strong_induction_on with
  | _ n ih =>
    intro est err regions subdivisions res hn hest herr hloop
    rw [cubatureLoop] at hloop
    by_cases hc : err > atol + rtol * |est|
    · rw [if_pos hc] at hloop
      cases hpop : heappop regions with
      | none => simp [hpop] at hloop
      | some p =>
        obtain ⟨region_k, rest⟩ := p
        simp only [hpop] at hloop
        cases hupd : updateSubregions rule f
            (_subregion_coordinates region_k.a region_k.b)
            (est - region_k.estimate) (err - region_k.error) rest with
        | error e => simp [hupd] at hloop
        | ok out =>
          obtain ⟨est2, err2, regions2⟩ := out
          simp only [hupd] at hloop
          have hsums := updateSubregions_sums rule f
            (_subregion_coordinates region_k.a region_k.b)
            (est - region_k.estimate) (err - region_k.error) rest
            (est2, err2, regions2) hupd
          dsimp only at hsums
          have hpe := heappop_estSum hpop
          have hpr := heappop_errSum hpop
          have hinv1 : est2 = regionsEstSum regions2 := by
            have h1 := hsums.1
            rw [hest] at h1
            linarith
          have hinv2 : err2 = regionsErrSum regions2 := by
            have h2 := hsums.2
            rw [herr] at h2
            linarith
          by_cases hstop : subdivisions + 1 ≥ max_subdivisions
          · rw [dif_pos hstop] at hloop
            simp only [Except.ok.injEq] at hloop
            rw [← hloop]
            exact ⟨hinv1, hinv2⟩
          · rw [dif_neg hstop] at hloop
            exact ih (max_subdivisions - (subdivisions + 1)) (by omega) est2 err2
              regions2 (subdivisions + 1) res rfl hinv1 hinv2 hloop
    · rw [if_neg hc] at hloop
      simp only [Except.ok.injEq] at hloop
      rw [← hloop]
      exact ⟨hest, herr⟩

/-- C3: the global accumulator invariant of the adaptive driver: at every
evaluation of the convergence test (i.e. along any run of the refinement loop
started with consistent state) and in the returned `CubatureResult`, the
global estimate equals the sum of the estimates of the working-set regions, and
likewise for the error, in exact arithmetic. -/
theorem cubature_global_accumulator_invariant
    (f : List ℚ → ℚ) (a b : List ℚ) (rule : Cubature) (rtol atol : ℚ)
    (max_subdivisions : ℕ) :
    (∀ (est err : ℚ) (regions : List CubatureRegion) (subdivisions : ℕ)
        (res : CubatureResult),
        est = regionsEstSum regions → err = regionsErrSum regions →
        cubatureLoop f rule rtol atol max_subdivisions est err regions subdivisions =
          .ok res →
        res.estimate = regionsEstSum res.regions ∧
          res.error = regionsErrSum res.regions) ∧
    (∀ res : CubatureResult,
        cubature f a b rule rtol atol max_subdivisions = .ok res →
        res.estimate = regionsEstSum res.regions ∧
          res.error = regionsErrSum res.regions) := by
  have hloopinv := cubatureLoop_invariant f rule rtol atol max_subdivisions
  constructor
  · intro est err regions subdivisions res hest herr hloop
    exact hloopinv (max_subdivisions - subdivisions) est err regions subdivisions res
      rfl hest herr hloop
  · intro res hres
    rw [cubature] at hres
    cases hest : rule.estimate f a b with
    | error e => simp [hest] at hres
    | ok est0 =>
      cases herr : rule.error_estimate f a b with
      | error pe =>
        cases pe <;> simp [hest, herr] at hres
      | ok err0 =>
        simp only [hest, herr] at hres
        exact hloopinv max_subdivisions est0 err0 [⟨est0, err0, a, b⟩] 0 res
          (by omega) (by simp [regionsEstSum]) (by simp [regionsErrSum]) hres

/-- Witness for C3 on a concrete converged run. -/
theorem cubature_global_accumulator_invariant_witness :
    (⟨1/2, 0, true, "converged", [⟨1/2, 0, [0], [1]⟩], 0, 0, 0⟩ :
        CubatureResult).estimate =
      regionsEstSum [⟨1/2, 0, [0], [1]⟩] ∧
    (⟨1/2, 0, true, "converged", [⟨1/2, 0, [0], [1]⟩], 0, 0, 0⟩ :
        CubatureResult).error =
      regionsErrSum [⟨1/2, 0, [0], [1]⟩] := by
  have hrun : cubature (fun x => x.headI) [0] [1]
      (ErrorFromDifference ⟨1, [[0]], [2]⟩ ⟨1, [[-1], [1]], [1, 1]⟩) 0 0 10 =
      .ok ⟨1/2, 0, true, "converged", [⟨1/2, 0, [0], [1]⟩], 0, 0, 0⟩ := by
    have hest : (ErrorFromDifference ⟨1, [[0]], [2]⟩ ⟨1, [[-1], [1]], [1, 1]⟩).estimate
        (fun x => x.headI) [0] [1] = .ok (1/2 : ℚ) := by
      simp [ErrorFromDifference, _apply_rule, List.zipWith3]
    have herr : (ErrorFromDifference ⟨1, [[0]], [2]⟩ ⟨1, [[-1], [1]], [1, 1]⟩).error_estimate
        (fun x => x.headI) [0] [1] = .ok (0 : ℚ) := by
      simp [ErrorFromDifference, errorPair, _apply_rule, List.zipWith3, Except.map]
      norm_num
    simp only [cubature, hest, herr]
    rw [cubatureLoop]
    rw [if_neg (by norm_num)]
  exact (cubature_global_accumulator_invariant (fun x => x.headI) [0] [1]
      (ErrorFromDifference ⟨1, [[0]], [2]⟩ ⟨1, [[-1], [1]], [1, 1]⟩) 0 0 10).2
    ⟨1/2, 0, true, "converged", [⟨1/2, 0, [0], [1]⟩], 0, 0, 0⟩ hrun

lemma cubatureLoop_budget_break (f : List ℚ → ℚ) (rule : Cubature) (rtol atol : ℚ)
    (max_subdivisions : ℕ) :
    ∀ (n : ℕ) (est err : ℚ) (regions : List CubatureRegion) (subdivisions : ℕ)
      (res : CubatureResult),
      max_subdivisions - subdivisions = n →
      subdivisions < max_subdivisions →
      cubatureLoop f rule rtol atol max_subdivisions est err regions subdivisions =
        .ok res →
      res.success = false →
      res.status = "not_converged" ∧ res.subdivisions = max_subdivisions := by
  intro n
  induction n using Nat.strong_induction_on with
  | _ n ih =>
    intro est err regions subdivisions res hn hlt hloop hfail
    rw [cubatureLoop] at hloop
    by_cases hc : err > atol + rtol * |est|
    · rw [if_pos hc] at hloop
      cases hpop : heappop regions with
      | none => simp [hpop] at hloop
      | some p =>
        obtain ⟨region_k, rest⟩ := p
        simp only [hpop] at hloop
        cases hupd : updateSubregions rule f
            (_subregion_coordinates region_k.a region_k.b)
            (est - region_k.estimate) (err - region_k.error) rest with
        | error e => simp [hupd] at hloop
        | ok out =>
          obtain ⟨est2, err2, regions2⟩ := out
          simp only [hupd] at hloop
          by_cases hstop : subdivisions + 1 ≥ max_subdivisions
          · rw [dif_pos hstop] at hloop
            simp only [Except.ok.injEq] at hloop
            rw [← hloop]
            refine ⟨rfl, ?_⟩
            show subdivisions + 1 = max_subdivisions
            omega
          · rw [dif_neg hstop] at hloop
            exact ih (max_subdivisions - (subdivisions + 1)) (by omega) est2 err2
              regions2 (subdivisions + 1) res rfl (by omega) hloop hfail
    · rw [if_neg hc] at hloop
      simp only [Except.ok.injEq] at hloop
      rw [← hloop] at hfail
      simp at hfail

/-- C4 amended: for every finite `max_subdivisions ≥ 1`, whenever `cubature`
stops because the subdivision budget is reached before the convergence test
is satisfied (`success = False`), the result has `status = "not_converged"`
and its `subdivisions` count equals the configured `max_subdivisions`
exactly (the accumulated estimate and error are returned as is). -/
theorem cubature_not_converged_subdivisions_eq_max
    (f : List ℚ → ℚ) (a b : List ℚ) (rule : Cubature) (rtol atol : ℚ)
    (max_subdivisions : ℕ) (res : CubatureResult)
    (hmax : 1 ≤ max_subdivisions)
    (hres : cubature f a b rule rtol atol max_subdivisions = .ok res)
    (hfail : res.success = false) :
    res.status = "not_converged" ∧ res.subdivisions = max_subdivisions := by
  rw [cubature] at hres
  cases hest : rule.estimate f a b with
  | error e => simp [hest] at hres
  | ok est0 =>
    cases herr : rule.error_estimate f a b with
    | error pe => cases pe <;> simp [hest, herr] at hres
    | ok err0 =>
      simp only [hest, herr] at hres
      exact cubatureLoop_budget_break f rule rtol atol max_subdivisions
        max_subdivisions est0 err0 [⟨est0, err0, a, b⟩] 0 res (by omega)
        (by omega) hres hfail

lemma subregion_01 : _subregion_coordinates [0] [(1 : ℚ)] =
    [([0], [1/2]), ([1/2], [1])] := by
  simp [_subregion_coordinates, midpointVec, listProd]

/-- Running the embedded driver on `f(x) = x²` over `[0, 1]` with the
midpoint/trapezoid difference rule, zero tolerances, and a budget of at most
1: the loop performs exactly one subdivision and then breaks. -/
lemma cubature_sq_budget_run (max_subdivisions : ℕ) (h : max_subdivisions ≤ 1) :
    cubature (fun x => x.headI * x.headI) [0] [1]
        (ErrorFromDifference ⟨1, [[0]], [2]⟩ ⟨1, [[-1], [1]], [1, 1]⟩) 0 0
        max_subdivisions =
      .ok ⟨5/16, 1/16, false, "not_converged",
        [⟨1/32, 1/32, [0], [1/2]⟩, ⟨9/32, 1/32, [1/2], [1]⟩], 1, 0, 0⟩ := by
  have hest : (ErrorFromDifference ⟨1, [[0]], [2]⟩ ⟨1, [[-1], [1]], [1, 1]⟩).estimate
      (fun x => x.headI * x.headI) [0] [1] = .ok (1/4 : ℚ) := by
    simp [ErrorFromDifference, _apply_rule, List.zipWith3]
    norm_num
  have herr : (ErrorFromDifference ⟨1, [[0]], [2]⟩ ⟨1, [[-1], [1]], [1, 1]⟩).error_estimate
      (fun x => x.headI * x.headI) [0] [1] = .ok (1/4 : ℚ) := by
    simp [ErrorFromDifference, errorPair, _apply_rule, List.zipWith3, Except.map]
    norm_num
  have hestA : (ErrorFromDifference ⟨1, [[0]], [2]⟩ ⟨1, [[-1], [1]], [1, 1]⟩).estimate
      (fun x => x.headI * x.headI) [0] [1/2] = .ok (1/32 : ℚ) := by
    simp [ErrorFromDifference, _apply_rule, List.zipWith3]
    norm_num
  have herrA : (ErrorFromDifference ⟨1, [[0]], [2]⟩ ⟨1, [[-1], [1]], [1, 1]⟩).error_estimate
      (fun x => x.headI * x.headI) [0] [1/2] = .ok (1/32 : ℚ) := by
    simp [ErrorFromDifference, errorPair, _apply_rule, List.zipWith3, Except.map]
    norm_num
  have hestB : (ErrorFromDifference ⟨1, [[0]], [2]⟩ ⟨1, [[-1], [1]], [1, 1]⟩).estimate
      (fun x => x.headI * x.headI) [1/2] [1] = .ok (9/32 : ℚ) := by
    simp [ErrorFromDifference, _apply_rule, List.zipWith3]
    norm_num
  have herrB : (ErrorFromDifference ⟨1, [[0]], [2]⟩ ⟨1, [[-1], [1]], [1, 1]⟩).error_estimate
      (fun x => x.headI * x.headI) [1/2] [1] = .ok (1/32 : ℚ) := by
    simp [ErrorFromDifference, errorPair, _apply_rule, List.zipWith3, Except.map]
    norm_num
  simp only [cubature, hest, herr]
  rw [cubatureLoop]
  rw [if_pos (by norm_num)]
  simp only [heappop]
  rw [subregion_01]
  simp only [updateSubregions, hestA, herrA, hestB, herrB]
  rw [dif_pos (by omega)]
  simp only [Except.ok.injEq, CubatureResult.mk.injEq]
  norm_num

/-- C4 counterexample: with configured `max_subdivisions = 0`, a
non-converging run stops with `status = "not_converged"` but performs one
subdivision and reports `subdivisions = 1`, not the configured limit `0` —
so the claim fails for that finite configured budget. -/
theorem cubature_budget_zero_counterexample :
    cubature (fun x => x.headI * x.headI) [0] [1]
        (ErrorFromDifference ⟨1, [[0]], [2]⟩ ⟨1, [[-1], [1]], [1, 1]⟩) 0 0 0 =
      .ok ⟨5/16, 1/16, false, "not_converged",
        [⟨1/32, 1/32, [0], [1/2]⟩, ⟨9/32, 1/32, [1/2], [1]⟩], 1, 0, 0⟩ ∧
    (1 : ℕ) ≠ 0 :=
  ⟨cubature_sq_budget_run 0 (by omega), by omega⟩

/-- Witness for the amended C4 at `max_subdivisions = 1`. -/
theorem cubature_not_converged_subdivisions_eq_max_witness :
    (⟨5/16, 1/16, false, "not_converged",
        [⟨1/32, 1/32, [0], [1/2]⟩, ⟨9/32, 1/32, [1/2], [1]⟩], 1, 0, 0⟩ :
      CubatureResult).status = "not_converged" ∧
    (⟨5/16, 1/16, false, "not_converged",
        [⟨1/32, 1/32, [0], [1/2]⟩, ⟨9/32, 1/32, [1/2], [1]⟩], 1, 0, 0⟩ :
      CubatureResult).subdivisions = 1 :=
  cubature_not_converged_subdivisions_eq_max (fun x => x.headI * x.headI) [0] [1]
    (ErrorFromDifference ⟨1, [[0]], [2]⟩ ⟨1, [[-1], [1]], [1, 1]⟩) 0 0 1
    ⟨5/16, 1/16, false, "not_converged",
      [⟨1/32, 1/32, [0], [1/2]⟩, ⟨9/32, 1/32, [1/2], [1]⟩], 1, 0, 0⟩
    (le_refl 1) (cubature_sq_budget_run 1 (le_refl 1)) rfl

/-- All `2^d` lower/upper choice patterns, one boolean per axis (`false` =
keep the lower half `(a_i, m_i)`, `true` = keep the upper half `(m_i, b_i)`),
in the order `itertools.product` enumerates them. -/
def boolPatterns (d : ℕ) : List (List Bool) :=
  listProd (List.replicate d [false, true])

/-- The subregion of `[a, b]` selected by a lower/upper choice pattern. -/
def subregionOfPattern (a b : List ℚ) (c : List Bool) : List ℚ × List ℚ :=
  let m := midpointVec a b
  (List.zipWith3 (fun ci ai mi => if ci then mi else ai) c a m,
   List.zipWith3 (fun ci mi bi => if ci then bi else mi) c m b)

lemma listProd_two_cons {α : Type} (x y : α) (rs : List (List α)) :
    listProd ([x, y] :: rs) =
      (listProd rs).map (fun c => x :: c) ++ (listProd rs).map (fun c => y :: c) := by
  simp [listProd]

lemma boolPatterns_succ (d : ℕ) :
    boolPatterns (d + 1) =
      (boolPatterns d).map (fun c => false :: c) ++
        (boolPatterns d).map (fun c => true :: c) := by
  rw [boolPatterns, List.replicate_succ, listProd_two_cons]
  rfl

lemma boolPatterns_length (d : ℕ) : (boolPatterns d).length = 2 ^ d := by
  induction d with
  | zero => rfl
  | succ d ih =>
    rw [boolPatterns_succ]
    simp [ih]
    ring

lemma boolPatterns_mem_length {d : ℕ} {c : List Bool} (h : c ∈ boolPatterns d) :
    c.length = d := by
  induction d generalizing c with
  | zero => simp [boolPatterns, listProd] at h; simp [h]
  | succ d ih =>
    rw [boolPatterns_succ] at h
    rcases List.mem_append.mp h with h0 | h0 <;>
    · obtain ⟨c', hc', rfl⟩ := List.mem_map.mp h0
      simp [ih hc']

lemma boolPatterns_complete {d : ℕ} :
    ∀ c : List Bool, c.length = d → c ∈ boolPatterns d := by
  induction d with
  | zero => intro c hc; simp [List.length_eq_zero] at hc; simp [hc, boolPatterns, listProd]
  | succ d ih =>
    intro c hc
    cases c with
    | nil => simp at hc
    | cons c0 cs =>
      rw [boolPatterns_succ, List.mem_append]
      have hcs : cs ∈ boolPatterns d := ih cs (by simpa using hc)
      cases c0 with
      | false => exact Or.inl (List.mem_map.mpr ⟨cs, hcs, rfl⟩)
      | true => exact Or.inr (List.mem_map.mpr ⟨cs, hcs, rfl⟩)

lemma boolPatterns_nodup (d : ℕ) : (boolPatterns d).Nodup := by
  induction d with
  | zero => simp [boolPatterns, listProd]
  | succ d ih =>
    rw [boolPatterns_succ]
    refine List.Nodup.append ?_ ?_ ?_
    · exact ih.map (fun c c' h => by simpa using h)
    · exact ih.map (fun c c' h => by simpa using h)
    · intro c hc hc'
      obtain ⟨u, _, rfl⟩ := List.mem_map.mp hc
      obtain ⟨v, _, hv⟩ := List.mem_map.mp hc'
      simp at hv

lemma subregion_prod_lengths :
    ∀ (as bs : List ℚ), as.length = bs.length →
      (listProd (List.zipWith (fun ai mi => [ai, mi]) as (midpointVec as bs))).length =
          2 ^ as.length ∧
        (listProd (List.zipWith (fun mi bi => [mi, bi]) (midpointVec as bs) bs)).length =
          2 ^ as.length := by
  intro as
  induction as with
  | nil => intro bs h; simp [listProd, midpointVec]
  | cons a0 as ih =>
    intro bs h
    cases bs with
    | nil => simp at h
    | cons b0 bs =>
      have h' : as.length = bs.length := by simpa using h
      obtain ⟨ih1, ih2⟩ := ih bs h'
      constructor
      · rw [show List.zipWith (fun ai mi => [ai, mi]) (a0 :: as)
              (midpointVec (a0 :: as) (b0 :: bs)) =
            [a0, (a0 + b0) / 2] ::
              List.zipWith (fun ai mi => [ai, mi]) as (midpointVec as bs) from rfl]
        rw [listProd_two_cons]
        simp [ih1, pow_succ]
        ring
      · rw [show List.zipWith (fun mi bi => [mi, bi])
              (midpointVec (a0 :: as) (b0 :: bs)) (b0 :: bs) =
            [(a0 + b0) / 2, b0] ::
              List.zipWith (fun mi bi => [mi, bi]) (midpointVec as bs) bs from rfl]
        rw [listProd_two_cons]
        simp [ih2, pow_succ]
        ring

lemma subregionOfPattern_cons_false (a0 b0 : ℚ) (as bs : List ℚ) (c : List Bool) :
    subregionOfPattern (a0 :: as) (b0 :: bs) (false :: c) =
      (a0 :: (subregionOfPattern as bs c).1,
       (a0 + b0) / 2 :: (subregionOfPattern as bs c).2) := rfl

lemma subregionOfPattern_cons_true (a0 b0 : ℚ) (as bs : List ℚ) (c : List Bool) :
    subregionOfPattern (a0 :: as) (b0 :: bs) (true :: c) =
      ((a0 + b0) / 2 :: (subregionOfPattern as bs c).1,
       b0 :: (subregionOfPattern as bs c).2) := rfl

lemma subregion_coordinates_eq_patterns :
    ∀ (a b : List ℚ), a.length = b.length →
      _subregion_coordinates a b = (boolPatterns a.length).map (subregionOfPattern a b) := by
  intro a
  induction a with
  | nil =>
    intro b h
    have hb : b = [] := List.length_eq_zero.mp h.symm
    subst hb
    rfl
  | cons a0 as ih =>
    intro b h
    cases b with
    | nil => simp at h
    | cons b0 bs =>
      have h' : as.length = bs.length := by simpa using h
      obtain ⟨hP, hQ⟩ := subregion_prod_lengths as bs h'
      rw [show _subregion_coordinates (a0 :: as) (b0 :: bs) =
          List.zip
            (listProd ([a0, (a0 + b0) / 2] ::
              List.zipWith (fun ai mi => [ai, mi]) as (midpointVec as bs)))
            (listProd ([(a0 + b0) / 2, b0] ::
              List.zipWith (fun mi bi => [mi, bi]) (midpointVec as bs) bs)) from rfl]
      rw [listProd_two_cons, listProd_two_cons]
      rw [List.zip_append (by simp [hP, hQ])]
      rw [List.zip_map, List.zip_map]
      rw [show List.zip
            (listProd (List.zipWith (fun ai mi => [ai, mi]) as (midpointVec as bs)))
            (listProd (List.zipWith (fun mi bi => [mi, bi]) (midpointVec as bs) bs)) =
          _subregion_coordinates as bs from rfl]
      rw [ih bs h']
      rw [show (a0 :: as).length = as.length + 1 from rfl]
      rw [boolPatterns_succ, List.map_append, List.map_map, List.map_map,
        List.map_map, List.map_map]
      rfl


/-- Coordinatewise membership of a point in a closed hyperrectangle. -/
def inHyperrect (a b x : List ℚ) : Prop :=
  List.Forall₂ (fun l v => l ≤ v) a x ∧ List.Forall₂ (fun v u => v ≤ u) x b

/-- Coordinatewise membership in the open interior of a hyperrectangle. -/
def inOpenHyperrect (a b x : List ℚ) : Prop :=
  List.Forall₂ (fun l v => l < v) a x ∧ List.Forall₂ (fun v u => v < u) x b

lemma subregion_cover_forward :
    ∀ (a b x : List ℚ), List.Forall₂ (fun l u => l ≤ u) a b → inHyperrect a b x →
      ∃ c, c.length = a.length ∧
        inHyperrect (subregionOfPattern a b c).1 (subregionOfPattern a b c).2 x := by
  intro a
  induction a with
  | nil =>
    intro b x hab hx
    cases hab
    obtain ⟨h1, h2⟩ := hx
    cases h1
    exact ⟨[], rfl, List.Forall₂.nil, List.Forall₂.nil⟩
  | cons a0 as ih =>
    intro b x hab hx
    cases b with
    | nil => cases hab
    | cons b0 bs =>
      cases x with
      | nil => obtain ⟨h1, _⟩ := hx; cases h1
      | cons x0 xs =>
        cases hab with
        | cons hab0 habs =>
          obtain ⟨h1, h2⟩ := hx
          cases h1 with
          | cons ha0 has =>
            cases h2 with
            | cons hb0 hbs =>
              obtain ⟨c, hclen, hc1, hc2⟩ := ih bs xs habs ⟨has, hbs⟩
              by_cases hm : (a0 + b0) / 2 ≤ x0
              · refine ⟨true :: c, by simp [hclen], ?_, ?_⟩
                · rw [subregionOfPattern_cons_true]
                  exact List.Forall₂.cons hm hc1
                · rw [subregionOfPattern_cons_true]
                  exact List.Forall₂.cons hb0 hc2
              · refine ⟨false :: c, by simp [hclen], ?_, ?_⟩
                · rw [subregionOfPattern_cons_false]
                  exact List.Forall₂.cons ha0 hc1
                · rw [subregionOfPattern_cons_false]
                  exact List.Forall₂.cons (by linarith [not_le.mp hm]) hc2

lemma subregion_cover_backward :
    ∀ (a b x : List ℚ) (c : List Bool), List.Forall₂ (fun l u => l ≤ u) a b →
      c.length = a.length →
      inHyperrect (subregionOfPattern a b c).1 (subregionOfPattern a b c).2 x →
      inHyperrect a b x := by
  intro a
  induction a with
  | nil =>
    intro b x c hab hclen hx
    cases hab
    have hc : c = [] := List.length_eq_zero.mp hclen
    subst hc
    obtain ⟨h1, h2⟩ := hx
    cases h1
    exact ⟨List.Forall₂.nil, List.Forall₂.nil⟩
  | cons a0 as ih =>
    intro b x c hab hclen hx
    cases b with
    | nil => cases hab
    | cons b0 bs =>
      cases hab with
      | cons hab0 habs =>
        cases c with
        | nil => simp at hclen
        | cons c0 cs =>
          have hcs : cs.length = as.length := by simpa using hclen
          cases c0 with
          | true =>
            rw [subregionOfPattern_cons_true] at hx
            obtain ⟨h1, h2⟩ := hx
            cases h1 with
            | cons hm0 hm1 =>
              cases h2 with
              | cons hx0 hxs =>
                obtain ⟨g1, g2⟩ := ih bs _ cs habs hcs ⟨hm1, hxs⟩
                exact ⟨List.Forall₂.cons (by linarith) g1,
                  List.Forall₂.cons hx0 g2⟩
          | false =>
            rw [subregionOfPattern_cons_false] at hx
            obtain ⟨h1, h2⟩ := hx
            cases h1 with
            | cons hm0 hm1 =>
              cases h2 with
              | cons hx0 hxs =>
                obtain ⟨g1, g2⟩ := ih bs _ cs habs hcs ⟨hm1, hxs⟩
                exact ⟨List.Forall₂.cons hm0 g1,
                  List.Forall₂.cons (by linarith) g2⟩

lemma subregion_interior_unique :
    ∀ (a b x : List ℚ) (c₁ c₂ : List Bool),
      a.length = b.length →
      c₁.length = a.length → c₂.length = a.length →
      inOpenHyperrect (subregionOfPattern a b c₁).1 (subregionOfPattern a b c₁).2 x →
      inOpenHyperrect (subregionOfPattern a b c₂).1 (subregionOfPattern a b c₂).2 x →
      c₁ = c₂ := by
  intro a
  induction a with
  | nil =>
    intro b x c₁ c₂ _ h1 h2 _ _
    rw [List.length_eq_zero.mp h1, List.length_eq_zero.mp h2]
  | cons a0 as ih =>
    intro b x c₁ c₂ hab h1 h2 hm1 hm2
    cases b with
    | nil => simp at hab
    | cons b0 bs =>
      have hab' : as.length = bs.length := by simpa using hab
      cases c₁ with
      | nil => simp at h1
      | cons u cs₁ =>
        cases c₂ with
        | nil => simp at h2
        | cons v cs₂ =>
          have h1' : cs₁.length = as.length := by simpa using h1
          have h2' : cs₂.length = as.length := by simpa using h2
          cases x with
          | nil =>
            exfalso
            cases u <;>
              (first
                | (rw [subregionOfPattern_cons_true] at hm1; exact absurd hm1.1 (by intro hcon; cases hcon)
                  )
                | (rw [subregionOfPattern_cons_false] at hm1; exact absurd hm1.1 (by intro hcon; cases hcon)))
          | cons x0 xs =>
            cases u <;> cases v
            · rw [subregionOfPattern_cons_false] at hm1 hm2
              obtain ⟨p1, p2⟩ := hm1
              obtain ⟨q1, q2⟩ := hm2
              cases p1 with | cons p1h p1t => ?_
              cases p2 with | cons p2h p2t => ?_
              cases q1 with | cons q1h q1t => ?_
              cases q2 with | cons q2h q2t => ?_
              rw [ih bs xs cs₁ cs₂ hab' h1' h2' ⟨p1t, p2t⟩ ⟨q1t, q2t⟩]
            · exfalso
              rw [subregionOfPattern_cons_false] at hm1
              rw [subregionOfPattern_cons_true] at hm2
              obtain ⟨p1, p2⟩ := hm1
              obtain ⟨q1, q2⟩ := hm2
              cases p2 with | cons p2h _ => ?_
              cases q1 with | cons q1h _ => ?_
              linarith
            · exfalso
              rw [subregionOfPattern_cons_true] at hm1
              rw [subregionOfPattern_cons_false] at hm2
              obtain ⟨p1, p2⟩ := hm1
              obtain ⟨q1, q2⟩ := hm2
              cases p1 with | cons p1h _ => ?_
              cases q2 with | cons q2h _ => ?_
              linarith
            · rw [subregionOfPattern_cons_true] at hm1 hm2
              obtain ⟨p1, p2⟩ := hm1
              obtain ⟨q1, q2⟩ := hm2
              cases p1 with | cons p1h p1t => ?_
              cases p2 with | cons p2h p2t => ?_
              cases q1 with | cons q1h q1t => ?_
              cases q2 with | cons q2h q2t => ?_
              rw [ih bs xs cs₁ cs₂ hab' h1' h2' ⟨p1t, p2t⟩ ⟨q1t, q2t⟩]

/-- C8: for a `d`-dimensional region with bounds `a ≤ b`,
`_subregion_coordinates` yields exactly `2^d` subregion pairs, namely the
image of the full duplicate-free list of per-axis lower/upper choice
patterns (each pattern picking `(a_i, m_i)` or `(m_i, b_i)` with `m` the
midpoint, and occurring exactly once); consequently the children cover the
parent exactly and have pairwise disjoint interiors. -/
theorem subregion_coordinates_binary_subdivision
    (a b : List ℚ) (d : ℕ) (ha : a.length = d) (hb : b.length = d)
    (hab : List.Forall₂ (fun l u => l ≤ u) a b) :
    (_subregion_coordinates a b).length = 2 ^ d ∧
    _subregion_coordinates a b = (boolPatterns d).map (subregionOfPattern a b) ∧
    (boolPatterns d).Nodup ∧
    (∀ c : List Bool, c ∈ boolPatterns d ↔ c.length = d) ∧
    (∀ x, inHyperrect a b x ↔
      ∃ c ∈ boolPatterns d,
        inHyperrect (subregionOfPattern a b c).1 (subregionOfPattern a b c).2 x) ∧
    (∀ c₁ ∈ boolPatterns d, ∀ c₂ ∈ boolPatterns d, c₁ ≠ c₂ → ∀ x,
      ¬(inOpenHyperrect (subregionOfPattern a b c₁).1 (subregionOfPattern a b c₁).2 x ∧
        inOpenHyperrect (subregionOfPattern a b c₂).1 (subregionOfPattern a b c₂).2 x)) := by
  subst ha
  have hlen : a.length = b.length := by rw [hb]
  have hchar := subregion_coordinates_eq_patterns a b hlen
  refine ⟨?_, hchar, boolPatterns_nodup _, ?_, ?_, ?_⟩
  · rw [hchar, List.length_map, boolPatterns_length]
  · intro c
    exact ⟨boolPatterns_mem_length, boolPatterns_complete c⟩
  · intro x
    constructor
    · intro hx
      obtain ⟨c, hclen, hc⟩ := subregion_cover_forward a b x hab hx
      exact ⟨c, boolPatterns_complete c hclen, hc⟩
    · rintro ⟨c, hcmem, hc⟩
      exact subregion_cover_backward a b x c hab (boolPatterns_mem_length hcmem) hc
  · rintro c₁ h₁ c₂ h₂ hne x ⟨hx₁, hx₂⟩
    exact hne (subregion_interior_unique a b x c₁ c₂ hlen
      (boolPatterns_mem_length h₁) (boolPatterns_mem_length h₂) hx₁ hx₂)

/-- Witness for C8 at the unit interval `a = [0]`, `b = [1]`. -/
theorem subregion_coordinates_binary_subdivision_witness :
    (_subregion_coordinates [(0 : ℚ)] [(1 : ℚ)]).length = 2 ^ 1 ∧
    _subregion_coordinates [(0 : ℚ)] [(1 : ℚ)] =
      (boolPatterns 1).map (subregionOfPattern [(0 : ℚ)] [(1 : ℚ)]) ∧
    (boolPatterns 1).Nodup ∧
    (∀ c : List Bool, c ∈ boolPatterns 1 ↔ c.length = 1) ∧
    (∀ x, inHyperrect [(0 : ℚ)] [(1 : ℚ)] x ↔
      ∃ c ∈ boolPatterns 1,
        inHyperrect (subregionOfPattern [(0 : ℚ)] [(1 : ℚ)] c).1
          (subregionOfPattern [(0 : ℚ)] [(1 : ℚ)] c).2 x) ∧
    (∀ c₁ ∈ boolPatterns 1, ∀ c₂ ∈ boolPatterns 1, c₁ ≠ c₂ → ∀ x,
      ¬(inOpenHyperrect (subregionOfPattern [(0 : ℚ)] [(1 : ℚ)] c₁).1
          (subregionOfPattern [(0 : ℚ)] [(1 : ℚ)] c₁).2 x ∧
        inOpenHyperrect (subregionOfPattern [(0 : ℚ)] [(1 : ℚ)] c₂).1
          (subregionOfPattern [(0 : ℚ)] [(1 : ℚ)] c₂).2 x)) :=
  subregion_coordinates_binary_subdivision [(0 : ℚ)] [(1 : ℚ)] 1 rfl rfl
    (List.Forall₂.cons (by norm_num) List.Forall₂.nil)
